import Mathlib

/-!
Metadata extraction layer of the IMSLP bridge (`client/imslp.go`, `tools/search_work.go`).

A shallow embedding of the pure helpers `parseIMSLPTitle`, `extractInstrumentation`,
`extractKey`, `extractOpusNumber`, of the assembling operations `GetWorkDetails` and
`GetScoreLinks`, and of the `search_work` handler, followed by theorems about them.

Strings.  Every string handled by this layer comes out of `json.Unmarshal`, which only
produces valid UTF-8.  On valid UTF-8 the byte-level functions of Go's `strings` package
(`Index`, `Contains`, `HasSuffix`, `Split`, ...) agree with their rune-level reading,
because UTF-8 is self-synchronising.  A Go string is therefore modelled as the list of its
runes, `List Char`.
-/

namespace Bachstreet

/-- A Go string, as the list of its runes. -/
abbrev Str := List Char

/-! ## The parts of Go's standard library that the source calls -/

namespace unicode

/-- Go `unicode.IsSpace`: the Latin-1 white space runes and the runes of the Unicode
`White_Space` property above Latin-1. -/
def IsSpace (r : Char) : Bool :=
  r = '\t' || r = '\n' || r.toNat = 0x0B || r.toNat = 0x0C || r = '\r' || r = ' ' ||
  r.toNat = 0x85 || r.toNat = 0xA0 ||
  r.toNat = 0x1680 || (0x2000 ≤ r.toNat && r.toNat ≤ 0x200A) ||
  r.toNat = 0x2028 || r.toNat = 0x2029 || r.toNat = 0x202F || r.toNat = 0x205F ||
  r.toNat = 0x3000

/-- Go `unicode.ToLower`, exact on ASCII and on the only two non-ASCII runes whose lower
case is an ASCII letter (U+0130 and U+212A).  Every other rune is mapped by Go to a
non-ASCII rune; the model keeps it as it is.  The source only ever searches the lowered
string for the ASCII patterns "op." and ".pdf", so which non-ASCII rune stands at a
position makes no difference to any result. -/
def ToLower (r : Char) : Char :=
  if 'A' ≤ r ∧ r ≤ 'Z' then Char.ofNat (r.toNat + 32)
  else if r.toNat = 0x130 then 'i'
  else if r.toNat = 0x212A then 'k'
  else r

end unicode

namespace strings

/-- Go `strings.HasPrefix`: `len(s) >= len(prefix) && s[:len(prefix)] == prefix`. -/
def HasPrefix (s pre : Str) : Bool :=
  pre.length ≤ s.length && s.take pre.length = pre

/-- Go `strings.HasSuffix`: `len(s) >= len(suffix) && s[len(s)-len(suffix):] == suffix`. -/
def HasSuffix (s suffix : Str) : Bool :=
  suffix.length ≤ s.length && s.drop (s.length - suffix.length) = suffix

/-- Go `strings.Index`: the index of the first instance of `substr` in `s`; Go's `-1`
(no instance) is `none`. -/
def Index : Str → Str → Option Nat
  | [], substr => if substr = [] then some 0 else none
  | c :: cs, substr =>
    if HasPrefix (c :: cs) substr then some 0
    else (Index cs substr).map (· + 1)

/-- Go `strings.Contains`: `Index(s, substr) >= 0`. -/
def Contains (s substr : Str) : Bool :=
  (Index s substr).isSome

/-- Go `strings.TrimSuffix`: `s` without the trailing `suffix`, or `s` itself when it
does not end with `suffix`. -/
def TrimSuffix (s suffix : Str) : Str :=
  if HasSuffix s suffix then s.take (s.length - suffix.length) else s

/-- Go `strings.TrimSpace`: `s` with all leading and trailing white space, as defined by
Unicode, removed. -/
def TrimSpace (s : Str) : Str :=
  ((s.dropWhile unicode.IsSpace).reverse.dropWhile unicode.IsSpace).reverse

/-- Go `strings.ToLower` on valid UTF-8: every rune mapped by `unicode.ToLower`. -/
def ToLower (s : Str) : Str :=
  s.map unicode.ToLower

/-- The loop of Go `strings.genSplit` (with `sepSave = 0`): cut at the first instance of
`sep`, continue after it.  `fuel` is the bound `n - 1` on the number of iterations. -/
def genSplit (sep : Str) : Nat → Str → List Str
  | 0, s => [s]
  | fuel + 1, s =>
    match Index s sep with
    | none => [s]
    | some m => s.take m :: genSplit sep fuel (s.drop (m + sep.length))

/-- Go `strings.Split`: an empty separator explodes `s` into its runes; otherwise
`genSplit` runs, Go capping the number of pieces at `len(s) + 1`. -/
def Split (s sep : Str) : List Str :=
  if sep = [] then s.map (fun c => [c])
  else genSplit sep s.length s

/-- Go `strings.Join`. -/
def Join : List Str → Str → Str
  | [], _ => []
  | [a], _ => a
  | a :: b :: rest, sep => a ++ sep ++ Join (b :: rest) sep

end strings

/-- Go `fmt.Sprintf("%d", n)`: the decimal rendering of an integer. -/
def formatInt : Int → Str
  | Int.ofNat n => Nat.toDigits 10 n
  | Int.negSucc n => '-' :: Nat.toDigits 10 (n + 1)

/-! ## `models/models.go` -/

namespace models

/-- Record `models.Work`. -/
structure Work where
  ID : Str := []
  Title : Str := []
  Composer : Str := []
  ComposerID : Str := []
  Instrumentation : Str := []
  Key : Str := []
  OpusNumber : Str := []
  MovementCount : Int := 0
  YearComposed : Str := []
  Genre : Str := []
  ScoreCount : Int := 0
  PageURL : Str := []
  deriving DecidableEq, Repr

/-- Record `models.Score`. -/
structure Score where
  ID : Str := []
  WorkID : Str := []
  Edition : Str := []
  Editor : Str := []
  Publisher : Str := []
  Year : Str := []
  Description : Str := []
  PageCount : Int := 0
  FileType : Str := []
  DownloadURL : Str := []
  FileSize : Str := []
  deriving DecidableEq, Repr

end models

/-! ## `client/imslp.go` -/

namespace client

/-- Constant `imslpBaseURL`. -/
def imslpBaseURL : Str := "https://imslp.org".toList

/-- Function `parseIMSLPTitle`; the pair is `(composer, workTitle)`. -/
def parseIMSLPTitle (title : Str) : Str × Str :=
  match strings.Index title " (".toList with
  | some idx =>
    let workTitle := strings.TrimSpace (title.take idx)
    let composerPart := strings.TrimSuffix (title.drop (idx + 2)) ")".toList
    let composer := strings.TrimSpace composerPart
    (composer, workTitle)
  | none => ("Unknown".toList, title)

/-- Function `extractInstrumentation`: the loop appends every category that contains
"For " to `instruments`, which is then joined. -/
def extractInstrumentation (categories : List Str) : Str :=
  let instruments := categories.foldl
    (fun instruments cat =>
      if strings.Contains cat "For ".toList then instruments ++ [cat] else instruments)
    []
  strings.Join instruments ", ".toList

/-- The list `keys` of `extractKey`. -/
def extractKey.keys : List Str :=
  ["C major".toList, "C minor".toList, "D major".toList, "D minor".toList,
   "E major".toList, "E minor".toList, "F major".toList, "F minor".toList,
   "G major".toList, "G minor".toList, "A major".toList, "A minor".toList,
   "B major".toList, "B minor".toList]

/-- The loop of `extractKey` over the keys not yet tried. -/
def extractKey.loop (content : Str) : List Str → Str
  | [] => []
  | key :: rest => if strings.Contains content key then key else extractKey.loop content rest

/-- Function `extractKey`. -/
def extractKey (content : Str) : Str :=
  extractKey.loop content extractKey.keys

/-- Function `extractOpusNumber`.  `parts[1]` and `Split(...)[0]` are read with `getD`;
the first is guarded by `len(parts) > 1` and `Split` never returns an empty slice for a
non-empty separator. -/
def extractOpusNumber (title : Str) : Str :=
  if strings.Contains (strings.ToLower title) "op.".toList then
    let parts := strings.Split title "Op.".toList
    if parts.length > 1 then
      let opNum := strings.TrimSpace ((strings.Split (parts.getD 1 []) ",".toList).getD 0 [])
      "Op.".toList ++ opNum
    else []
  else []

/-- The anonymous struct `result.Parse.Categories[i]` of `GetWorkDetails`. -/
structure CategoryEntry where
  Category : Str
  deriving DecidableEq, Repr

/-- The anonymous struct `result.Parse` of `GetWorkDetails`: the decoded page-parse
payload. -/
structure ParsePayload where
  Title : Str
  PageID : Int
  Content : Str
  Categories : List CategoryEntry
  deriving DecidableEq, Repr

/-- Method `Client.GetWorkDetails`.  `fetch` stands for the request, the status check, the
read of the body and `json.Unmarshal`: it yields the decoded payload or the error the
method returns.  `pathEscape` stands for `url.PathEscape`. -/
def GetWorkDetails (pathEscape : Str → Str) (fetch : Str → Except Str ParsePayload)
    (pageTitle : Str) : Except Str models.Work :=
  match fetch pageTitle with
  | .error err => .error err
  | .ok result =>
    let (composer, title) := parseIMSLPTitle result.Title
    let work : models.Work :=
      { ID := formatInt result.PageID
        Title := title
        Composer := composer
        PageURL := imslpBaseURL ++ "/wiki/".toList ++ pathEscape pageTitle }
    let categories := result.Categories.map (fun cat => cat.Category)
    let work := { work with Instrumentation := extractInstrumentation categories }
    let work := { work with Key := extractKey result.Content }
    let work := { work with OpusNumber := extractOpusNumber title }
    .ok work

/-- The anonymous struct of one image of a page in `GetScoreLinks`. -/
structure ImageEntry where
  Title : Str
  deriving DecidableEq, Repr

/-- The anonymous struct of one page in `GetScoreLinks`. -/
structure PageEntry where
  Images : List ImageEntry
  deriving DecidableEq, Repr

/-- The body of the inner loop of `GetScoreLinks` for one image. -/
def GetScoreLinks.step (getFileURL : Str → Except Str (Str × Str))
    (scores : List models.Score) (img : ImageEntry) : List models.Score :=
  if strings.HasSuffix (strings.ToLower img.Title) ".pdf".toList then
    match getFileURL img.Title with
    | .error _ => scores
    | .ok (fileURL, fileSize) =>
      scores ++ [{ ID := img.Title
                   Description := img.Title
                   FileType := "PDF".toList
                   DownloadURL := fileURL
                   FileSize := fileSize }]
  else scores

/-- Method `Client.GetScoreLinks`.  `fetch` stands for the request, the status check, the
read of the body and `json.Unmarshal`; it yields the pages of the decoded listing in the
order in which the `range` over the map visits them.  `getFileURL` is the result of the
method `getFileURL` for a file name. -/
def GetScoreLinks (fetch : Str → Except Str (List PageEntry))
    (getFileURL : Str → Except Str (Str × Str)) (pageTitle : Str) :
    Except Str (List models.Score) :=
  match fetch pageTitle with
  | .error err => .error err
  | .ok pages =>
    .ok (pages.foldl
      (fun scores page => page.Images.foldl (GetScoreLinks.step getFileURL) scores) [])

end client

/-! ## `tools/search_work.go` -/

namespace tools

/-- The struct `args` of the `search_work` handler; an absent `limit` decodes to 0. -/
structure SearchArgs where
  Query : Str
  Limit : Int
  deriving DecidableEq, Repr

/-- Record `models.SearchResult` (the field `Composers` is never set). -/
structure SearchResult where
  Query : Str
  TotalCount : Int
  Works : List models.Work
  deriving DecidableEq, Repr

/-- The two assignments to `args.Limit` in the handler of `SearchWorkTool`. -/
def SearchWorkTool.limit (limit : Int) : Int :=
  let limit := if limit = 0 then 10 else limit
  if limit > 50 then 50 else limit

/-- The handler of `SearchWorkTool` on decoded arguments, up to the rendering of the
result as JSON text.  `SearchWorks` stands for `Client.SearchWorks`. -/
def SearchWorkTool.Handler (SearchWorks : Str → Int → Except Str (List models.Work))
    (args : SearchArgs) : Except Str SearchResult :=
  match SearchWorks args.Query (SearchWorkTool.limit args.Limit) with
  | .error err => .error ("Search failed: ".toList ++ err)
  | .ok works => .ok { Query := args.Query, TotalCount := works.length, Works := works }

end tools

/-! ## Reference definitions, written after the specification -/

namespace Ref

/-- Whether `sub` stands in `s` at position `i`. -/
def occursAt (s sub : Str) (i : Nat) : Bool :=
  (s.drop i).take sub.length = sub

/-- The index of the first occurrence of `sub` in `s`: the least position at which it
stands, if there is one. -/
def firstOccurrence (s sub : Str) : Option Nat :=
  (List.range (s.length + 1)).find? (occursAt s sub)

/-- One trailing ")" removed, if present. -/
def dropClosingParen (s : Str) : Str :=
  if s.getLast? = some ')' then s.dropLast else s

/-- The code points of the white space runes of Unicode: U+0009 to U+000D, U+0020,
U+0085, U+00A0, U+1680, U+2000 to U+200A, U+2028, U+2029, U+202F, U+205F and U+3000. -/
def whiteSpace : List Nat :=
  [0x09, 0x0A, 0x0B, 0x0C, 0x0D, 0x20, 0x85, 0xA0, 0x1680,
   0x2000, 0x2001, 0x2002, 0x2003, 0x2004, 0x2005, 0x2006, 0x2007, 0x2008, 0x2009, 0x200A,
   0x2028, 0x2029, 0x202F, 0x205F, 0x3000]

/-- Whether a rune is white space. -/
def isWhiteSpace (c : Char) : Bool :=
  decide (c.toNat ∈ whiteSpace)

/-- A string without its leading white space. -/
def trimStart : Str → Str
  | [] => []
  | c :: cs => if isWhiteSpace c then trimStart cs else c :: cs

/-- A string without its trailing white space. -/
def trimEnd : Str → Str
  | [] => []
  | c :: cs =>
    match trimEnd cs with
    | [] => if isWhiteSpace c then [] else [c]
    | kept => c :: kept

/-- A string with its leading and trailing white space trimmed. -/
def trimmed (s : Str) : Str :=
  trimEnd (trimStart s)

/-- Title Parser of the specification: with `i` the index of the first " (", the work
title is `t[0..i)` trimmed and the composer is `t[i+2..]` without one trailing ")",
trimmed; without " (" the composer is "Unknown" and the title is `t`. -/
def titleParser (t : Str) : Str × Str :=
  match firstOccurrence t " (".toList with
  | some i => (trimmed (dropClosingParen (t.drop (i + 2))), trimmed (t.take i))
  | none => ("Unknown".toList, t)

/-- The text of `s` before the first occurrence of `sub`, or all of `s` when `sub` does
not occur. -/
def upTo (s sub : Str) : Str :=
  match firstOccurrence s sub with
  | some i => s.take i
  | none => s

/-- Opus Extractor of the specification: when "Op." occurs, first at index `i`, the text
after it and before the next "Op." is cut at its first comma, trimmed, and put after
"Op."; without a capitalised "Op." the result is empty. -/
def opusExtractor (t : Str) : Str :=
  match firstOccurrence t "Op.".toList with
  | some i =>
    "Op.".toList ++ trimmed (upTo (upTo (t.drop (i + 3)) "Op.".toList) ",".toList)
  | none => []

/-- A file name that ends with ".pdf", in any mix of upper and lower case. -/
def isPdfName (name : Str) : Bool :=
  match name.reverse with
  | f :: d :: p :: dot :: _ =>
    dot = '.' && (p = 'p' || p = 'P') && (d = 'd' || d = 'D') && (f = 'f' || f = 'F')
  | _ => false

/-- The Score that the Score Collector owes for one listed file: none unless the name
ends with ".pdf" and the file resolves; then the name as ID and Description, "PDF" as
file type, and the URL and size as resolved. -/
def scoreFor (resolve : Str → Except Str (Str × Str)) (file : client.ImageEntry) :
    Option models.Score :=
  if isPdfName file.Title then
    match resolve file.Title with
    | .ok (fileURL, fileSize) =>
      some { ID := file.Title
             Description := file.Title
             FileType := "PDF".toList
             DownloadURL := fileURL
             FileSize := fileSize }
    | .error _ => none
  else none

/-- A string that has no leading and no trailing white space: neither its first nor its
last rune is a white space rune. -/
def hasNoOuterSpace (s : Str) : Bool :=
  match s.head?, s.getLast? with
  | some first, some last => !unicode.IsSpace first && !unicode.IsSpace last
  | _, _ => true

/-- The canonical page title of a work title and a composer, `w + " (" + c + ")"`, as
`TestGetWorkDetails` rebuilds it from a search result. -/
def pageTitle (w c : Str) : Str :=
  w ++ " (".toList ++ c ++ ")".toList

end Ref

/-! ## Sample inputs -/

namespace Sample

/-- A listing of one page with three files. -/
def listing : List client.PageEntry :=
  [{ Images := [{ Title := "File:Sonata.pdf".toList },
                { Title := "File:Broken.PDF".toList },
                { Title := "File:Cover.jpg".toList }] }]

/-- A resolver that knows one file only. -/
def resolver (fileName : Str) : Except Str (Str × Str) :=
  if fileName = "File:Sonata.pdf".toList then
    .ok ("https://imslp.org/images/Sonata.pdf".toList, "2.35 MB".toList)
  else .error "no file info found".toList

/-- A decoded page-parse payload whose only "Op." stands in the parenthetical part. -/
def payload : client.ParsePayload :=
  { Title := "Nocturne in E minor (Op. Posth. Editions)".toList
    PageID := 4711
    Content := "A nocturne in E minor, later set in C major.".toList
    Categories := [{ Category := "For piano".toList }, { Category := "For Piano".toList },
                   { Category := "Romantic era works".toList }] }

/-- A stand-in for `url.PathEscape` that escapes the space only. -/
def escape (s : Str) : Str :=
  s.flatMap (fun c => if c = ' ' then "%20".toList else [c])

end Sample


/-! ## Lemmas on the string functions -/

open strings

theorem hasPrefix_iff (s p : Str) : HasPrefix s p = true ↔ p <+: s := by
  unfold HasPrefix
  rw [List.prefix_iff_eq_take]
  simp only [Bool.and_eq_true, decide_eq_true_eq]
  constructor
  · rintro ⟨_, h⟩; exact h.symm
  · intro h
    refine ⟨?_, h.symm⟩
    have := congrArg List.length h
    simp at this
    omega

theorem occursAt_zero (s sub : Str) : Ref.occursAt s sub 0 = HasPrefix s sub := by
  unfold Ref.occursAt HasPrefix
  simp only [List.drop_zero]
  by_cases h : s.take sub.length = sub
  · have := congrArg List.length h
    simp at this
    simp [h, this]
  · simp [h]

theorem occursAt_succ (c : Char) (cs sub : Str) (i : Nat) :
    Ref.occursAt (c :: cs) sub (i + 1) = Ref.occursAt cs sub i := by
  simp [Ref.occursAt]

theorem index_eq_firstOccurrence (s sub : Str) : Index s sub = Ref.firstOccurrence s sub := by
  induction s with
  | nil =>
    simp only [Index, Ref.firstOccurrence, List.length_nil, Nat.zero_add]
    by_cases h : sub = []
    · simp [h, List.range_succ, Ref.occursAt]
    · have : ¬ ([] : Str) = sub := fun e => h e.symm
      simp [h, List.range_succ, Ref.occursAt, this]
  | cons c cs ih =>
    simp only [Index, Ref.firstOccurrence, List.length_cons]
    rw [List.range_succ_eq_map, List.find?_cons, occursAt_zero]
    cases hp : HasPrefix (c :: cs) sub
    · simp only [Bool.false_eq_true, if_false]
      rw [List.find?_map, ih, Ref.firstOccurrence]
      congr 1
    · simp

theorem contains_iff (s sub : Str) : Contains s sub = true ↔ sub <:+: s := by
  unfold Contains
  induction s with
  | nil =>
    by_cases h : sub = [] <;> simp [Index, h]
  | cons c cs ih =>
    rw [List.infix_cons_iff, ← ih, ← hasPrefix_iff]
    simp only [Index]
    cases hp : HasPrefix (c :: cs) sub <;> simp

theorem trimSuffix_paren (s : Str) : TrimSuffix s ")".toList = Ref.dropClosingParen s := by
  unfold TrimSuffix Ref.dropClosingParen HasSuffix
  rcases List.eq_nil_or_concat s with h | ⟨l, a, h⟩
  · subst h; simp
  · subst h
    simp [List.dropLast_concat]


theorem genSplit_fuel (sep : Str) (hsep : sep ≠ []) :
    ∀ (f₁ f₂ : Nat) (s : Str), s.length ≤ f₁ → s.length ≤ f₂ →
      genSplit sep f₁ s = genSplit sep f₂ s := by
  have hidx : Index ([] : Str) sep = none := by simp [Index, hsep]
  intro f₁
  induction f₁ with
  | zero =>
    intro f₂ s h₁ _
    have hs : s = [] := List.length_eq_zero.mp (Nat.le_zero.mp h₁)
    subst hs
    cases f₂ <;> simp [genSplit, hidx]
  | succ n ih =>
    intro f₂ s h₁ h₂
    cases f₂ with
    | zero =>
      have hs : s = [] := List.length_eq_zero.mp (Nat.le_zero.mp h₂)
      subst hs
      simp [genSplit, hidx]
    | succ m =>
      simp only [genSplit]
      cases hi : Index s sep with
      | none => rfl
      | some k =>
        simp only
        have hpos : 0 < sep.length := List.length_pos.mpr hsep
        have hlen : (s.drop (k + sep.length)).length < s.length ∨ s = [] := by
          by_cases hs : s = []
          · exact Or.inr hs
          · left
            have : 0 < s.length := List.length_pos.mpr hs
            simp only [List.length_drop]
            omega
        rcases hlen with hlt | hs
        · rw [ih m _ (by omega) (by omega)]
        · subst hs
          simp [hidx] at hi

theorem split_unfold (s sep : Str) (hsep : sep ≠ []) :
    Split s sep =
      match Index s sep with
      | none => [s]
      | some m => s.take m :: Split (s.drop (m + sep.length)) sep := by
  have hidx : Index ([] : Str) sep = none := by simp [Index, hsep]
  unfold Split
  simp only [hsep, if_false]
  cases s with
  | nil => simp [genSplit, hidx]
  | cons c cs =>
    simp only [List.length_cons, genSplit]
    cases hi : Index (c :: cs) sep with
    | none => rfl
    | some k =>
      simp only
      congr 1
      apply genSplit_fuel sep hsep
      · simp only [List.length_drop, List.length_cons]
        have hpos : 0 < sep.length := List.length_pos.mpr hsep
        omega
      · exact le_refl _

theorem trimSpace_within (s : Str) : TrimSpace s <:+: s := by
  unfold TrimSpace
  have h1 : (s.dropWhile unicode.IsSpace) <:+ s := List.dropWhile_suffix _
  have h2 : ((s.dropWhile unicode.IsSpace).reverse.dropWhile unicode.IsSpace).reverse <+:
      s.dropWhile unicode.IsSpace := by
    rw [← List.reverse_suffix, List.reverse_reverse]
    exact List.dropWhile_suffix _
  exact h2.isInfix.trans h1.isInfix

theorem join_eq_intercalate (xs : List Str) (sep : Str) :
    Join xs sep = sep.intercalate xs := by
  induction xs with
  | nil => simp [Join, List.intercalate]
  | cons a rest ih =>
    cases rest with
    | nil => simp [Join, List.intercalate]
    | cons b rest =>
      simp only [Join, ih]
      simp [List.intercalate, List.intersperse]


theorem index_occurs (s sub : Str) (i : Nat) (h : Index s sub = some i) :
    sub <+: s.drop i ∧ i ≤ s.length := by
  induction s generalizing i with
  | nil =>
    by_cases hs : sub = []
    · simp [Index, hs] at h
      subst h; simp [hs]
    · simp [Index, hs] at h
  | cons c cs ih =>
    simp only [Index] at h
    cases hp : HasPrefix (c :: cs) sub
    · simp only [hp, Bool.false_eq_true, if_false, Option.map_eq_some'] at h
      obtain ⟨j, hj, rfl⟩ := h
      have := ih j hj
      simpa using this
    · simp only [hp, if_true, Option.some.injEq] at h
      subst h
      exact ⟨(hasPrefix_iff _ _).mp hp, Nat.zero_le _⟩

theorem index_least (s sub : Str) (i : Nat) (h : Index s sub = some i) (a b : Str)
    (hs : s = a ++ sub ++ b) : i ≤ a.length := by
  induction s generalizing i a with
  | nil =>
    by_cases hsub : sub = []
    · simp [Index, hsub] at h
      omega
    · simp [Index, hsub] at h
  | cons c cs ih =>
    simp only [Index] at h
    cases hp : HasPrefix (c :: cs) sub
    · simp only [hp, Bool.false_eq_true, if_false, Option.map_eq_some'] at h
      obtain ⟨j, hj, rfl⟩ := h
      cases a with
      | nil =>
        exfalso
        have : sub <+: c :: cs := ⟨b, by simpa using hs.symm⟩
        rw [← hasPrefix_iff, hp] at this
        exact Bool.false_ne_true this
      | cons x a' =>
        simp only [List.cons_append, List.cons.injEq] at hs
        have := ih j hj a' hs.2
        simp only [List.length_cons]
        omega
    · simp only [hp, if_true, Option.some.injEq] at h
      omega

theorem index_none_iff (s sub : Str) : Index s sub = none ↔ ¬ sub <:+: s := by
  rw [← contains_iff, Contains]
  cases Index s sub <;> simp

theorem not_infix_take_index (s sub : Str) (i : Nat) (hne : sub ≠ [])
    (h : Index s sub = some i) : ¬ sub <:+: s.take i := by
  rintro ⟨a, b, hab⟩
  have hs : s = a ++ sub ++ (b ++ s.drop i) := by
    conv_lhs => rw [← List.take_append_drop i s, ← hab]
    simp
  have h1 := index_least s sub i h a _ hs
  have h2 := congrArg List.length hab
  have h3 : 0 < sub.length := List.length_pos.mpr hne
  simp only [List.length_append, List.length_take] at h2
  omega


theorem mem_dropWhile_of_not (p : Char → Bool) (l : Str) (x : Char) (hx : x ∈ l)
    (hp : p x = false) : x ∈ l.dropWhile p := by
  induction l with
  | nil => simp at hx
  | cons y ys ih =>
    rw [List.dropWhile_cons]
    by_cases hy : p y = true
    · simp only [hy, if_true]
      rcases List.mem_cons.mp hx with rfl | h
      · rw [hp] at hy; exact absurd hy Bool.false_ne_true
      · exact ih h
    · simp only [hy, if_false]
      exact hx

theorem mem_trimSpace (s : Str) (x : Char) (hx : x ∈ s) (hp : unicode.IsSpace x = false) :
    x ∈ TrimSpace s := by
  unfold TrimSpace
  rw [List.mem_reverse]
  apply mem_dropWhile_of_not _ _ _ _ hp
  rw [List.mem_reverse]
  exact mem_dropWhile_of_not _ _ _ hx hp

theorem index_of_first (a b : Str) (h : ¬ " (".toList <:+: a ++ [' ']) :
    Index (a ++ " (".toList ++ b) " (".toList = some a.length := by
  cases hi : Index (a ++ " (".toList ++ b) " (".toList with
  | none =>
    exfalso
    exact (index_none_iff _ _).mp hi ⟨a, b, rfl⟩
  | some i =>
    have hle := index_least _ _ i hi a b rfl
    have hocc := (index_occurs _ _ i hi).1
    rcases Nat.lt_or_ge i a.length with hlt | hge
    · exfalso
      apply h
      have e : a ++ [' '] = (a ++ " (".toList ++ b).take (a.length + 1) := by
        simp [List.take_append_eq_append_take]
      rw [e]
      have hpre : " (".toList <+: ((a ++ " (".toList ++ b).drop i).take (a.length + 1 - i) := by
        rw [List.prefix_iff_eq_take] at hocc ⊢
        rw [List.take_take]
        have : min (" (".toList.length) (a.length + 1 - i) = " (".toList.length := by
          simp; omega
        rw [this]
        exact hocc
      rw [← List.drop_take] at hpre
      exact hpre.isInfix.trans (List.drop_suffix _ _).isInfix
    · rw [Nat.le_antisymm hle hge]

theorem char_eq_iff_toNat (c d : Char) : c = d ↔ c.toNat = d.toNat := by
  constructor
  · rintro rfl; rfl
  · intro h
    rw [← Char.ofNat_toNat c, ← Char.ofNat_toNat d, h]

theorem isSpace_eq_isWhiteSpace (c : Char) : unicode.IsSpace c = Ref.isWhiteSpace c := by
  rw [Bool.eq_iff_iff]
  unfold unicode.IsSpace Ref.isWhiteSpace Ref.whiteSpace
  have ht : ('\t' : Char).toNat = 9 := rfl
  have hn : ('\n' : Char).toNat = 10 := rfl
  have hr : ('\r' : Char).toNat = 13 := rfl
  have hs : (' ' : Char).toNat = 32 := rfl
  simp only [Bool.or_eq_true, Bool.and_eq_true, decide_eq_true_eq, char_eq_iff_toNat, ht, hn,
    hr, hs, List.mem_cons, List.mem_singleton]
  simp only [List.mem_nil_iff, or_false]
  omega

theorem dropWhile_eq_trimStart (s : Str) : s.dropWhile unicode.IsSpace = Ref.trimStart s := by
  induction s with
  | nil => rfl
  | cons c cs ih =>
    rw [List.dropWhile_cons, Ref.trimStart, ih, isSpace_eq_isWhiteSpace]

theorem dropWhile_reverse_eq_trimEnd (s : Str) :
    (s.reverse.dropWhile unicode.IsSpace).reverse = Ref.trimEnd s := by
  induction s with
  | nil => rfl
  | cons c cs ih =>
    rw [List.reverse_cons, List.dropWhile_append, Ref.trimEnd, ← ih]
    cases h : cs.reverse.dropWhile unicode.IsSpace with
    | nil =>
      simp only [List.isEmpty_nil, if_true, List.reverse_nil, List.dropWhile_cons,
        List.dropWhile_nil, ← isSpace_eq_isWhiteSpace]
      cases unicode.IsSpace c <;> simp
    | cons x xs =>
      simp only [List.isEmpty_cons, Bool.false_eq_true, if_false, List.reverse_append,
        List.reverse_singleton, List.singleton_append]
      cases hk : (x :: xs).reverse with
      | nil => simp at hk
      | cons y ys => rfl

theorem trimSpace_eq_trimmed (s : Str) : TrimSpace s = Ref.trimmed s := by
  unfold TrimSpace Ref.trimmed
  rw [dropWhile_reverse_eq_trimEnd, dropWhile_eq_trimStart]

theorem trimStart_spec (s : Str) :
    ∃ pre, s = pre ++ Ref.trimStart s ∧ (∀ ch ∈ pre, Ref.isWhiteSpace ch = true) ∧
      ∀ ch, (Ref.trimStart s).head? = some ch → Ref.isWhiteSpace ch = false := by
  induction s with
  | nil => exact ⟨[], rfl, by simp, by simp [Ref.trimStart]⟩
  | cons c cs ih =>
    obtain ⟨pre, h1, h2, h3⟩ := ih
    cases hc : Ref.isWhiteSpace c
    · refine ⟨[], by simp [Ref.trimStart, hc], by simp, ?_⟩
      intro ch hch
      simp only [Ref.trimStart, hc, Bool.false_eq_true, if_false, List.head?_cons,
        Option.some.injEq] at hch
      rw [← hch, hc]
    · refine ⟨c :: pre, ?_, ?_, ?_⟩
      · simp only [Ref.trimStart, hc, if_true, List.cons_append]
        rw [← h1]
      · intro ch hch
        rcases List.mem_cons.mp hch with rfl | h
        · exact hc
        · exact h2 ch h
      · simpa only [Ref.trimStart, hc, if_true] using h3

theorem trimEnd_spec (r : Str) :
    ∃ post, r = Ref.trimEnd r ++ post ∧ (∀ ch ∈ post, Ref.isWhiteSpace ch = true) ∧
      ∀ ch, (Ref.trimEnd r).getLast? = some ch → Ref.isWhiteSpace ch = false := by
  induction r with
  | nil => exact ⟨[], rfl, by simp, by simp [Ref.trimEnd]⟩
  | cons c cs ih =>
    obtain ⟨post, h1, h2, h3⟩ := ih
    cases hk : Ref.trimEnd cs with
    | nil =>
      rw [hk, List.nil_append] at h1
      cases hc : Ref.isWhiteSpace c
      · have he : Ref.trimEnd (c :: cs) = [c] := by simp [Ref.trimEnd, hk, hc]
        rw [he]
        refine ⟨post, by rw [h1]; rfl, h2, ?_⟩
        intro ch hch
        simp only [List.getLast?_singleton, Option.some.injEq] at hch
        rw [← hch, hc]
      · have he : Ref.trimEnd (c :: cs) = [] := by simp [Ref.trimEnd, hk, hc]
        rw [he]
        refine ⟨c :: post, by rw [h1]; rfl, ?_, by simp⟩
        intro ch hch
        rcases List.mem_cons.mp hch with rfl | h
        · exact hc
        · exact h2 ch h
    | cons k ks =>
      have he : Ref.trimEnd (c :: cs) = c :: k :: ks := by simp [Ref.trimEnd, hk]
      rw [he]
      rw [hk] at h1 h3
      refine ⟨post, by rw [h1]; rfl, h2, ?_⟩
      intro ch hch
      apply h3 ch
      simpa only [List.getLast?_cons_cons] using hch

theorem trimmed_spec (s : Str) :
    ∃ pre post, s = pre ++ Ref.trimmed s ++ post ∧
      (∀ ch ∈ pre, Ref.isWhiteSpace ch = true) ∧
      (∀ ch ∈ post, Ref.isWhiteSpace ch = true) ∧
      (∀ ch, (Ref.trimmed s).head? = some ch → Ref.isWhiteSpace ch = false) ∧
      (∀ ch, (Ref.trimmed s).getLast? = some ch → Ref.isWhiteSpace ch = false) := by
  obtain ⟨pre, h1, h2, h3⟩ := trimStart_spec s
  obtain ⟨post, k1, k2, k3⟩ := trimEnd_spec (Ref.trimStart s)
  refine ⟨pre, post, ?_, h2, k2, ?_, k3⟩
  · unfold Ref.trimmed
    rw [List.append_assoc, ← k1, ← h1]
  · intro ch hch
    apply h3 ch
    unfold Ref.trimmed at hch
    rw [k1]
    cases hk : Ref.trimEnd (Ref.trimStart s) with
    | nil => rw [hk] at hch; simp at hch
    | cons x xs => rw [hk] at hch; simpa using hch

/-- Claim C1: `parseIMSLPTitle` equals the Title Parser reference definition on every
title: with `i` the index of the first " (", the work title is `t[0..i)` trimmed and the
composer is `t[i+2..]` without one trailing ")", trimmed; a title without " (" gives
("Unknown", t).  Trimmed means: what is cut off before and after the result is white space
only, and the result neither starts nor ends with a white space rune.  The two sample
titles of the specification give the stated pairs, and two titles with white space around
their parts come out trimmed. -/
theorem parseIMSLPTitle_eq_titleParser :
    (∀ t : Str, client.parseIMSLPTitle t = Ref.titleParser t) ∧
    (∀ (t : Str) (i : Nat), Ref.firstOccurrence t " (".toList = some i →
      (∃ pre post, t.take i = pre ++ (client.parseIMSLPTitle t).2 ++ post ∧
        (∀ ch ∈ pre, Ref.isWhiteSpace ch = true) ∧
        (∀ ch ∈ post, Ref.isWhiteSpace ch = true) ∧
        (∀ ch, (client.parseIMSLPTitle t).2.head? = some ch → Ref.isWhiteSpace ch = false) ∧
        (∀ ch, (client.parseIMSLPTitle t).2.getLast? = some ch →
          Ref.isWhiteSpace ch = false)) ∧
      (∃ pre post,
        Ref.dropClosingParen (t.drop (i + 2)) =
          pre ++ (client.parseIMSLPTitle t).1 ++ post ∧
        (∀ ch ∈ pre, Ref.isWhiteSpace ch = true) ∧
        (∀ ch ∈ post, Ref.isWhiteSpace ch = true) ∧
        (∀ ch, (client.parseIMSLPTitle t).1.head? = some ch → Ref.isWhiteSpace ch = false) ∧
        (∀ ch, (client.parseIMSLPTitle t).1.getLast? = some ch →
          Ref.isWhiteSpace ch = false))) ∧
    client.parseIMSLPTitle
        "Prelude and Fugue in C major, BWV 846 (Bach, Johann Sebastian)".toList =
      ("Bach, Johann Sebastian".toList, "Prelude and Fugue in C major, BWV 846".toList) ∧
    client.parseIMSLPTitle "Just a Title".toList = ("Unknown".toList, "Just a Title".toList) ∧
    client.parseIMSLPTitle "  Suite   ( Bach )".toList = ("Bach".toList, "Suite".toList) ∧
    client.parseIMSLPTitle "\tSuite\u00A0 (\u3000Bach\u2003\n)".toList =
      ("Bach".toList, "Suite".toList) := by
  have heq : ∀ t : Str, client.parseIMSLPTitle t = Ref.titleParser t := by
    intro t
    unfold client.parseIMSLPTitle Ref.titleParser
    rw [index_eq_firstOccurrence]
    cases Ref.firstOccurrence t " (".toList with
    | none => rfl
    | some i => simp only [trimSuffix_paren, trimSpace_eq_trimmed]
  refine ⟨heq, ?_, by decide, by decide, by decide, by decide⟩
  intro t i hi
  rw [heq t, Ref.titleParser, hi]
  exact ⟨trimmed_spec _, trimmed_spec _⟩

/-- Claim C1 at "  Suite   ( Bach )": the first " (" stands at index 9, and both parts
come out without the white space around them. -/
theorem parseIMSLPTitle_eq_titleParser_witness :
    (∃ pre post, "  Suite   ( Bach )".toList.take 9 =
        pre ++ (client.parseIMSLPTitle "  Suite   ( Bach )".toList).2 ++ post ∧
      (∀ ch ∈ pre, Ref.isWhiteSpace ch = true) ∧
      (∀ ch ∈ post, Ref.isWhiteSpace ch = true) ∧
      (∀ ch, (client.parseIMSLPTitle "  Suite   ( Bach )".toList).2.head? = some ch →
        Ref.isWhiteSpace ch = false) ∧
      (∀ ch, (client.parseIMSLPTitle "  Suite   ( Bach )".toList).2.getLast? = some ch →
        Ref.isWhiteSpace ch = false)) ∧
    client.parseIMSLPTitle "  Suite   ( Bach )".toList = ("Bach".toList, "Suite".toList) :=
  ⟨(parseIMSLPTitle_eq_titleParser.2.1 "  Suite   ( Bach )".toList 9 (by decide)).1,
   parseIMSLPTitle_eq_titleParser.2.2.2.2.1⟩

/-- Claim C7: title normalisation is idempotent: the work title returned by
`parseIMSLPTitle` contains no " (", and parsing it again returns it unchanged with the
composer "Unknown". -/
theorem parseIMSLPTitle_idempotent (t : Str) :
    ¬ " (".toList <:+: (client.parseIMSLPTitle t).2 ∧
    client.parseIMSLPTitle (client.parseIMSLPTitle t).2 =
      ("Unknown".toList, (client.parseIMSLPTitle t).2) := by
  have key : ¬ " (".toList <:+: (client.parseIMSLPTitle t).2 := by
    unfold client.parseIMSLPTitle
    cases hi : Index t " (".toList with
    | none => exact (index_none_iff _ _).mp hi
    | some i =>
      intro h
      exact not_infix_take_index t _ i (by decide) hi (h.trans (trimSpace_within _))
  refine ⟨key, ?_⟩
  have hnone := (index_none_iff _ _).mpr key
  generalize (client.parseIMSLPTitle t).2 = w at hnone
  unfold client.parseIMSLPTitle
  rw [hnone]

/-- Claim C8, counterexample: for "Suite (Bach, Johann Sebastian) (arr.)" the composer
returned is "Bach, Johann Sebastian) (arr.", not "Bach, Johann Sebastian". -/
theorem parseIMSLPTitle_keeps_text_after_paren :
    (client.parseIMSLPTitle "Suite (Bach, Johann Sebastian) (arr.)".toList).1 =
      "Bach, Johann Sebastian) (arr.".toList ∧
    (client.parseIMSLPTitle "Suite (Bach, Johann Sebastian) (arr.)".toList).1 ≠
      "Bach, Johann Sebastian".toList := by
  decide

/-- Claim C8 as amended: for a title `a ++ " (" ++ c ++ ")" ++ d` whose first " (" is the
one after `a` and that has more text `d` after the ")", the composer is the trimmed text
`c ++ ")" ++ d` less one final ")" of `d`, if `d` ends with one; the ")" after `c` is
part of the composer. -/
theorem parseIMSLPTitle_composer_after_paren (a c d : Str)
    (hfirst : ¬ " (".toList <:+: a ++ [' ']) (hd : d ≠ []) :
    (client.parseIMSLPTitle (a ++ " (".toList ++ c ++ ")".toList ++ d)).1 =
      TrimSpace (c ++ ")".toList ++ Ref.dropClosingParen d) ∧
    ')' ∈ (client.parseIMSLPTitle (a ++ " (".toList ++ c ++ ")".toList ++ d)).1 := by
  have hidx : Index (a ++ " (".toList ++ c ++ ")".toList ++ d) " (".toList = some a.length := by
    have := index_of_first a (c ++ ")".toList ++ d) hfirst
    simpa [List.append_assoc] using this
  have heq : (client.parseIMSLPTitle (a ++ " (".toList ++ c ++ ")".toList ++ d)).1 =
      TrimSpace (c ++ ")".toList ++ Ref.dropClosingParen d) := by
    unfold client.parseIMSLPTitle
    rw [hidx]
    simp only [trimSuffix_paren]
    have hdrop : (a ++ " (".toList ++ c ++ ")".toList ++ d).drop (a.length + 2) =
        c ++ ")".toList ++ d := by
      simp [List.append_assoc, List.drop_append_eq_append_drop]
    rw [hdrop]
    congr 1
    unfold Ref.dropClosingParen
    rw [List.getLast?_append_of_ne_nil _ hd, List.dropLast_append_of_ne_nil _ hd]
    split <;> rfl
  refine ⟨heq, ?_⟩
  rw [heq]
  apply mem_trimSpace
  · simp
  · decide


theorem split_head (s sep : Str) (hsep : sep ≠ []) :
    (Split s sep).getD 0 [] = Ref.upTo s sep := by
  rw [split_unfold s sep hsep, Ref.upTo, ← index_eq_firstOccurrence]
  cases Index s sep <;> rfl

theorem split_length_pos (s sep : Str) (hsep : sep ≠ []) : 0 < (Split s sep).length := by
  rw [split_unfold s sep hsep]
  cases Index s sep <;> simp

theorem toLower_contains_op (t : Str) (h : "Op.".toList <:+: t) :
    Contains (ToLower t) "op.".toList = true := by
  rw [contains_iff]
  obtain ⟨a, b, rfl⟩ := h
  refine ⟨ToLower a, ToLower b, ?_⟩
  simp only [ToLower, List.map_append]
  rfl

theorem extractOpusNumber_of_index_none (t : Str) (hi : Index t "Op.".toList = none) :
    client.extractOpusNumber t = [] := by
  unfold client.extractOpusNumber
  have : Split t "Op.".toList = [t] := by rw [split_unfold t _ (by decide), hi]
  simp only [this]
  simp

/-- Claim C2: `extractOpusNumber` equals the Opus Extractor reference definition on every
title: with a capitalised "Op." in the title the result is "Op." followed by the text
between the first "Op." and the next one (or the end), cut at its first comma and then
trimmed; without a capitalised "Op." the result is empty, a lowercase "op." included.
Trimmed means: what is cut off before and after is white space only, and what is kept
neither starts nor ends with a white space rune.  The four sample titles give
"Op.27 No.2", "Op.9 No.1", "" and ""; three titles with white space after the marker come
out trimmed. -/
theorem extractOpusNumber_eq_opusExtractor :
    (∀ t : Str, client.extractOpusNumber t = Ref.opusExtractor t) ∧
    (∀ t : Str, ¬ "Op.".toList <:+: t → client.extractOpusNumber t = []) ∧
    (∀ (t : Str) (i : Nat), Ref.firstOccurrence t "Op.".toList = some i →
      ∃ pre kept post,
        Ref.upTo (Ref.upTo (t.drop (i + 3)) "Op.".toList) ",".toList = pre ++ kept ++ post ∧
        client.extractOpusNumber t = "Op.".toList ++ kept ∧
        (∀ ch ∈ pre, Ref.isWhiteSpace ch = true) ∧
        (∀ ch ∈ post, Ref.isWhiteSpace ch = true) ∧
        (∀ ch, kept.head? = some ch → Ref.isWhiteSpace ch = false) ∧
        (∀ ch, kept.getLast? = some ch → Ref.isWhiteSpace ch = false)) ∧
    client.extractOpusNumber "Piano Sonata No.14, Op.27 No.2".toList = "Op.27 No.2".toList ∧
    client.extractOpusNumber "Nocturne Op.9 No.1".toList = "Op.9 No.1".toList ∧
    client.extractOpusNumber "Some Work Without Opus".toList = [] ∧
    client.extractOpusNumber "Symphony op.5".toList = [] ∧
    client.extractOpusNumber "Sonata Op. 27 , No.2".toList = "Op.27".toList ∧
    client.extractOpusNumber "Trio Op.1 No.3 Op.8".toList = "Op.1 No.3".toList ∧
    client.extractOpusNumber "Duo Op.\u00A09\u2009\t, Op.10".toList = "Op.9".toList := by
  have hne : "Op.".toList ≠ [] := by decide
  have hnone := extractOpusNumber_of_index_none
  have heq : ∀ t : Str, client.extractOpusNumber t = Ref.opusExtractor t := by
    intro t
    cases hi : Index t "Op.".toList with
    | none =>
      rw [hnone t hi, Ref.opusExtractor, ← index_eq_firstOccurrence, hi]
    | some m =>
      have hinf : "Op.".toList <:+: t := by
        rw [← contains_iff, Contains, hi]; rfl
      unfold client.extractOpusNumber Ref.opusExtractor
      rw [← index_eq_firstOccurrence, hi, toLower_contains_op t hinf]
      have hsplit : Split t "Op.".toList =
          t.take m :: Split (t.drop (m + 3)) "Op.".toList := by
        rw [split_unfold t _ hne, hi]; rfl
      have hlen := split_length_pos (t.drop (m + 3)) _ hne
      have hget : (Split t "Op.".toList).getD 1 [] =
          Ref.upTo (t.drop (m + 3)) "Op.".toList := by
        rw [hsplit, ← split_head _ _ hne]
        rfl
      simp only [if_true, hget, split_head _ _ (show ",".toList ≠ [] by decide)]
      rw [hsplit]
      simp only [List.length_cons]
      rw [if_pos (by omega), trimSpace_eq_trimmed]
  refine ⟨heq, ?_, ?_, by decide, by decide, by decide, by decide, by decide, by decide,
    by decide⟩
  · intro t h
    exact hnone t ((index_none_iff _ _).mpr h)
  · intro t i hi
    obtain ⟨pre, post, h1, h2, h3, h4, h5⟩ :=
      trimmed_spec (Ref.upTo (Ref.upTo (t.drop (i + 3)) "Op.".toList) ",".toList)
    refine ⟨pre, _, post, h1, ?_, h2, h3, h4, h5⟩
    rw [heq t, Ref.opusExtractor, hi]

theorem foldl_filter_append (p : Str → Bool) (cats : List Str) (init : List Str) :
    cats.foldl (fun acc cat => if p cat then acc ++ [cat] else acc) init =
      init ++ cats.filter p := by
  induction cats generalizing init with
  | nil => simp
  | cons c cs ih =>
    simp only [List.foldl_cons, List.filter_cons]
    rw [ih]
    cases p c <;> simp

theorem extractInstrumentation_eq (cats : List Str) :
    client.extractInstrumentation cats =
      Join (cats.filter (fun cat => Contains cat "For ".toList)) ", ".toList := by
  unfold client.extractInstrumentation
  simp only
  rw [foldl_filter_append (fun cat => Contains cat "For ".toList)]
  simp

theorem join_eq_nil (xs : List Str) (sep : Str) (h : ∀ x ∈ xs, x ≠ []) :
    Join xs sep = [] ↔ xs = [] := by
  cases xs with
  | nil => simp [Join]
  | cons a rest =>
    have ha : a ≠ [] := h a (List.mem_cons_self _ _)
    cases rest with
    | nil => simp [Join, ha]
    | cons b rest => simp [Join, ha]

/-- Claim C4: `extractInstrumentation` returns the categories that contain "For ", in
input order, joined with ", "; the result is empty exactly when no category contains
"For "; the sample list gives "For Piano". -/
theorem extractInstrumentation_spec (cats : List Str) :
    client.extractInstrumentation cats =
      ", ".toList.intercalate (cats.filter (fun cat => decide ("For ".toList <:+: cat))) ∧
    (client.extractInstrumentation cats = [] ↔ ∀ cat ∈ cats, ¬ "For ".toList <:+: cat) ∧
    client.extractInstrumentation ["For Piano".toList, "Romantic era works".toList] =
      "For Piano".toList := by
  have hfilter : cats.filter (fun cat => Contains cat "For ".toList) =
      cats.filter (fun cat => decide ("For ".toList <:+: cat)) := by
    apply List.filter_congr
    intro x _
    rw [Bool.eq_iff_iff, contains_iff]
    simp
  refine ⟨?_, ?_, by decide⟩
  · rw [extractInstrumentation_eq, join_eq_intercalate, hfilter]
  · rw [extractInstrumentation_eq, join_eq_nil, hfilter, List.filter_eq_nil_iff]
    · simp
    · intro x hx
      have := (List.mem_filter.mp hx).2
      rw [contains_iff] at this
      rintro rfl
      obtain ⟨a, b, hab⟩ := this
      have := congrArg List.length hab
      simp at this


theorem extractKey_loop_spec (content : Str) :
    ∀ ks : List Str, (∀ k ∈ ks, k ≠ []) →
      (client.extractKey.loop content ks = [] ↔ ∀ k ∈ ks, ¬ k <:+: content) ∧
      (client.extractKey.loop content ks ≠ [] →
        ∃ before after, ks = before ++ client.extractKey.loop content ks :: after ∧
          client.extractKey.loop content ks <:+: content ∧
          ∀ k ∈ before, ¬ k <:+: content) := by
  intro ks
  induction ks with
  | nil => intro _; simp [client.extractKey.loop]
  | cons k rest ih =>
    intro hne
    have hk : k ≠ [] := hne k (List.mem_cons_self _ _)
    have ih := ih (fun x hx => hne x (List.mem_cons_of_mem _ hx))
    simp only [client.extractKey.loop]
    cases hc : Contains content k
    · have hnot : ¬ k <:+: content := by
        rw [← contains_iff, hc]; exact Bool.false_ne_true
      simp only [Bool.false_eq_true, if_false]
      refine ⟨?_, ?_⟩
      · rw [ih.1]; simp [hnot]
      · intro h
        obtain ⟨before, after, h1, h2, h3⟩ := ih.2 h
        refine ⟨k :: before, after, by rw [List.cons_append, ← h1], h2, ?_⟩
        intro x hx
        rcases List.mem_cons.mp hx with rfl | hx
        · exact hnot
        · exact h3 x hx
    · have hin : k <:+: content := (contains_iff _ _).mp hc
      simp only [if_true]
      refine ⟨?_, ?_⟩
      · constructor
        · intro h; exact absurd h hk
        · intro h; exact absurd hin (h k (List.mem_cons_self _ _))
      · intro _
        exact ⟨[], rest, rfl, hin, by simp⟩

/-- Claim C3: `extractKey` scans the fixed list of 14 keys in order: the result is empty
exactly when no key of the list is a substring of the content, and a non-empty result is
a key of the list that is a substring of the content while no key before it in the list
is one. -/
theorem extractKey_first_match (content : Str) :
    client.extractKey.keys =
      ["C major".toList, "C minor".toList, "D major".toList, "D minor".toList,
       "E major".toList, "E minor".toList, "F major".toList, "F minor".toList,
       "G major".toList, "G minor".toList, "A major".toList, "A minor".toList,
       "B major".toList, "B minor".toList] ∧
    (client.extractKey content = [] ↔ ∀ k ∈ client.extractKey.keys, ¬ k <:+: content) ∧
    (client.extractKey content ≠ [] →
      ∃ before after,
        client.extractKey.keys = before ++ client.extractKey content :: after ∧
        client.extractKey content <:+: content ∧
        ∀ k ∈ before, ¬ k <:+: content) := by
  have h := extractKey_loop_spec content client.extractKey.keys (by decide)
  exact ⟨rfl, h.1, h.2⟩


theorem toNat_ofNat_small (n : Nat) (h : n < 0xd800) : (Char.ofNat n).toNat = n := by
  have hv : n.isValidChar := Or.inl h
  simp only [Char.ofNat, hv, dite_true, Char.ofNatAux, Char.toNat]
  rfl

theorem char_le_iff (c d : Char) : c ≤ d ↔ c.toNat ≤ d.toNat := by
  rw [Char.le_def]
  exact Iff.rfl

theorem toLower_toNat (c : Char) :
    (unicode.ToLower c).toNat =
      if 65 ≤ c.toNat ∧ c.toNat ≤ 90 then c.toNat + 32
      else if c.toNat = 0x130 then 105
      else if c.toNat = 0x212A then 107
      else c.toNat := by
  unfold unicode.ToLower
  have hA : ('A' : Char).toNat = 65 := rfl
  have hZ : ('Z' : Char).toNat = 90 := rfl
  have hc : ('A' ≤ c ∧ c ≤ 'Z') ↔ (65 ≤ c.toNat ∧ c.toNat ≤ 90) := by
    rw [char_le_iff, char_le_iff, hA, hZ]
  by_cases h : 65 ≤ c.toNat ∧ c.toNat ≤ 90
  · rw [if_pos (hc.mpr h), if_pos h]
    exact toNat_ofNat_small _ (by omega)
  · rw [if_neg (fun h0 => h (hc.mp h0)), if_neg h]
    by_cases h1 : c.toNat = 0x130
    · rw [if_pos h1, if_pos h1]; rfl
    · rw [if_neg h1, if_neg h1]
      by_cases h2 : c.toNat = 0x212A
      · rw [if_pos h2, if_pos h2]; rfl
      · rw [if_neg h2, if_neg h2]

theorem toLower_eq_iff (c l u : Char) (hl : 97 ≤ l.toNat ∧ l.toNat ≤ 122)
    (hi : l.toNat ≠ 105) (hk : l.toNat ≠ 107) (hu : u.toNat + 32 = l.toNat) :
    unicode.ToLower c = l ↔ (c = l ∨ c = u) := by
  rw [char_eq_iff_toNat, char_eq_iff_toNat c l, char_eq_iff_toNat c u, toLower_toNat]
  split_ifs <;> omega

theorem toLower_eq_dot (c : Char) : unicode.ToLower c = '.' ↔ c = '.' := by
  rw [char_eq_iff_toNat, char_eq_iff_toNat c, toLower_toNat]
  have : ('.' : Char).toNat = 46 := rfl
  rw [this]
  split_ifs <;> omega

theorem hasSuffix_iff (s suf : Str) : HasSuffix s suf = true ↔ suf <:+ s := by
  unfold HasSuffix
  rw [List.suffix_iff_eq_drop]
  simp only [Bool.and_eq_true, decide_eq_true_eq]
  constructor
  · rintro ⟨_, h⟩; exact h.symm
  · intro h
    refine ⟨?_, h.symm⟩
    have := congrArg List.length h
    simp only [List.length_drop] at this
    omega

theorem hasSuffix_pdf (name : Str) :
    HasSuffix (ToLower name) ".pdf".toList = Ref.isPdfName name := by
  rw [Bool.eq_iff_iff, hasSuffix_iff, ← List.reverse_prefix, ToLower, ← List.map_reverse,
    Ref.isPdfName]
  have hp := fun c => eq_comm.trans
    (toLower_eq_iff c 'p' 'P' (by decide) (by decide) (by decide) (by decide))
  have hd := fun c => eq_comm.trans
    (toLower_eq_iff c 'd' 'D' (by decide) (by decide) (by decide) (by decide))
  have hf := fun c => eq_comm.trans
    (toLower_eq_iff c 'f' 'F' (by decide) (by decide) (by decide) (by decide))
  have hdot := fun c => eq_comm.trans (toLower_eq_dot c)
  have e : ".pdf".toList.reverse = ['f', 'd', 'p', '.'] := rfl
  rw [e]
  rcases name.reverse with _ | ⟨f, _ | ⟨d, _ | ⟨p, _ | ⟨dot, rest⟩⟩⟩⟩
  · simp
  · simp
  · simp
  · simp
  · simp only [List.map_cons, List.cons_prefix_cons, hp, hd, hf, hdot]
    simp only [List.nil_prefix, and_true, Bool.and_eq_true, Bool.or_eq_true, decide_eq_true_eq]
    tauto


theorem foldl_step_filterMap (getFileURL : Str → Except Str (Str × Str))
    (files : List client.ImageEntry) (init : List models.Score) :
    files.foldl (client.GetScoreLinks.step getFileURL) init =
      init ++ files.filterMap (Ref.scoreFor getFileURL) := by
  induction files generalizing init with
  | nil => simp
  | cons f fs ih =>
    rw [List.foldl_cons, ih, List.filterMap_cons]
    unfold client.GetScoreLinks.step Ref.scoreFor
    rw [hasSuffix_pdf]
    cases Ref.isPdfName f.Title
    · simp
    · simp only [if_true]
      cases getFileURL f.Title with
      | error e => simp
      | ok r => obtain ⟨u, sz⟩ := r; simp

/-- Claim C5: on a successfully fetched listing of one page, `GetScoreLinks` succeeds and
returns, in listing order, the Score of every file whose name ends with ".pdf" in any
case and whose resolution succeeds; other files contribute nothing, and a listing without
a resolvable PDF gives the empty list. -/
theorem GetScoreLinks_collects (fetch : Str → Except Str (List client.PageEntry))
    (getFileURL : Str → Except Str (Str × Str)) (pageTitle : Str)
    (files : List client.ImageEntry) (h : fetch pageTitle = .ok [{ Images := files }]) :
    client.GetScoreLinks fetch getFileURL pageTitle =
      .ok (files.filterMap (Ref.scoreFor getFileURL)) ∧
    ((∀ file ∈ files, Ref.scoreFor getFileURL file = none) →
      client.GetScoreLinks fetch getFileURL pageTitle = .ok []) := by
  have heq : client.GetScoreLinks fetch getFileURL pageTitle =
      .ok (files.filterMap (Ref.scoreFor getFileURL)) := by
    unfold client.GetScoreLinks
    rw [h]
    simp only [List.foldl_cons, List.foldl_nil, foldl_step_filterMap, List.nil_append]
  refine ⟨heq, ?_⟩
  intro hnone
  rw [heq, List.filterMap_eq_nil_iff.mpr hnone]

/-- Claim C5 at a listing of a resolvable PDF, a failing PDF and an image: one Score. -/
theorem GetScoreLinks_collects_witness :
    client.GetScoreLinks (fun _ => .ok Sample.listing) Sample.resolver
        "Sonata (Composer)".toList =
      .ok [{ ID := "File:Sonata.pdf".toList
             Description := "File:Sonata.pdf".toList
             FileType := "PDF".toList
             DownloadURL := "https://imslp.org/images/Sonata.pdf".toList
             FileSize := "2.35 MB".toList }] :=
  (GetScoreLinks_collects (fun _ => .ok Sample.listing) Sample.resolver
    "Sonata (Composer)".toList _ rfl).1.trans (by rfl)

theorem workTitle_within (t a b : Str) (h : t = a ++ " (".toList ++ b) :
    (client.parseIMSLPTitle t).2 <:+: a := by
  unfold client.parseIMSLPTitle
  cases hi : Index t " (".toList with
  | none => exact absurd ⟨a, b, h.symm⟩ ((index_none_iff _ _).mp hi)
  | some i =>
    have hle := index_least t _ i hi a b h
    have hpre : t.take i <+: a := by
      have : a = t.take a.length := by simp [h, List.take_append_eq_append_take]
      rw [this]
      exact List.take_prefix_take_left t hle
    exact (trimSpace_within _).trans hpre.isInfix

/-- Claim C6: from a decoded page-parse payload `GetWorkDetails` builds the Work whose ID
is the decimal page id, whose composer and title are the results of `parseIMSLPTitle` on
the payload title, whose page URL is the base URL, "/wiki/" and the escaped page title of
the caller, and whose instrumentation, key and opus number come from the categories, the
body text and the normalised work title; an "Op." that stands only in the parenthetical
part is not extracted. -/
theorem GetWorkDetails_assembles (pathEscape : Str → Str)
    (fetch : Str → Except Str client.ParsePayload) (p : Str) (payload : client.ParsePayload)
    (h : fetch p = .ok payload) :
    client.GetWorkDetails pathEscape fetch p =
      .ok { ID := formatInt payload.PageID
            Composer := (client.parseIMSLPTitle payload.Title).1
            Title := (client.parseIMSLPTitle payload.Title).2
            PageURL := "https://imslp.org/wiki/".toList ++ pathEscape p
            Instrumentation :=
              client.extractInstrumentation (payload.Categories.map (fun c => c.Category))
            Key := client.extractKey payload.Content
            OpusNumber := client.extractOpusNumber (client.parseIMSLPTitle payload.Title).2 } ∧
    (∀ a b : Str, payload.Title = a ++ " (".toList ++ b → ¬ "Op.".toList <:+: a →
      client.extractOpusNumber (client.parseIMSLPTitle payload.Title).2 = []) := by
  constructor
  · unfold client.GetWorkDetails
    rw [h]
    simp [client.imslpBaseURL]
  · intro a b ht hop
    apply extractOpusNumber_of_index_none
    rw [index_none_iff]
    intro hin
    exact hop (hin.trans (workTitle_within _ a b ht))


/-- Claim C9, the code at the failing input: `extractOpusNumber` returns the empty string
for "Symphony op.5", not "op.5". -/
theorem extractOpusNumber_lowercase_only :
    client.extractOpusNumber "Symphony op.5".toList = [] ∧
    client.extractOpusNumber "Symphony op.5".toList ≠ "op.5".toList := by
  decide

/-- Claim C10, counterexample: the limit -5 is passed on to `SearchWorks` as -5, outside
the range from 1 to 50. -/
theorem SearchWorkTool_limit_negative :
    tools.SearchWorkTool.limit (-5) = -5 ∧
    ¬ (1 ≤ tools.SearchWorkTool.limit (-5) ∧ tools.SearchWorkTool.limit (-5) ≤ 50) ∧
    tools.SearchWorkTool.Handler (fun _ limit => .error (formatInt limit))
        { Query := "Bach".toList, Limit := -5 } =
      .error "Search failed: -5".toList :=
  ⟨by decide, by decide, rfl⟩

theorem limit_bounds (limit : Int) :
    tools.SearchWorkTool.limit limit ≤ 50 ∧
    (50 < limit → tools.SearchWorkTool.limit limit = 50) ∧
    (0 ≤ limit → 1 ≤ tools.SearchWorkTool.limit limit) := by
  unfold tools.SearchWorkTool.limit
  refine ⟨?_, ?_, ?_⟩
  · simp only; split_ifs <;> omega
  · intro h; simp only; split_ifs <;> omega
  · intro h; simp only; split_ifs <;> omega

/-- Claim C10 as amended: the limit passed to `SearchWorks` is at most 50; an absent limit
(0) becomes 10, a limit above 50 becomes 50, and a limit that is not negative is passed as
a value from 1 to 50: the result of the handler depends on `SearchWorks` at such limits
only. -/
theorem SearchWorkTool_limit_clamped (limit : Int) :
    tools.SearchWorkTool.limit limit ≤ 50 ∧
    tools.SearchWorkTool.limit 0 = 10 ∧
    (50 < limit → tools.SearchWorkTool.limit limit = 50) ∧
    (0 ≤ limit → 1 ≤ tools.SearchWorkTool.limit limit) ∧
    (∀ (SearchWorks SearchWorks2 : Str → Int → Except Str (List models.Work)) (query : Str),
      (∀ passed : Int, passed ≤ 50 → (0 ≤ limit → 1 ≤ passed) →
        SearchWorks query passed = SearchWorks2 query passed) →
      tools.SearchWorkTool.Handler SearchWorks { Query := query, Limit := limit } =
        tools.SearchWorkTool.Handler SearchWorks2 { Query := query, Limit := limit }) := by
  have hb := limit_bounds limit
  refine ⟨hb.1, by decide, hb.2.1, hb.2.2, ?_⟩
  intro sw sw2 q h
  unfold tools.SearchWorkTool.Handler
  simp only
  rw [h _ hb.1 hb.2.2]

/-- Claim C10 as amended, at the limits 70 and 7. -/
theorem SearchWorkTool_limit_clamped_witness :
    tools.SearchWorkTool.limit 70 = 50 ∧ 1 ≤ tools.SearchWorkTool.limit 7 :=
  ⟨(SearchWorkTool_limit_clamped 70).2.2.1 (by decide),
   (SearchWorkTool_limit_clamped 7).2.2.2.1 (by decide)⟩

/-- Claim C3 at a content that names D minor before C major: the result is "C major",
the earlier key of the list. -/
theorem extractKey_first_match_witness :
    client.extractKey "Sonata in D minor, finale in C major".toList = "C major".toList ∧
    ∃ before after,
      client.extractKey.keys =
        before ++ client.extractKey "Sonata in D minor, finale in C major".toList :: after ∧
      client.extractKey "Sonata in D minor, finale in C major".toList <:+:
        "Sonata in D minor, finale in C major".toList ∧
      ∀ k ∈ before, ¬ k <:+: "Sonata in D minor, finale in C major".toList :=
  ⟨by decide,
   (extractKey_first_match "Sonata in D minor, finale in C major".toList).2.2 (by decide)⟩

/-- Claim C6 at the sample payload, fetched under another page title. -/
theorem GetWorkDetails_assembles_witness :
    client.GetWorkDetails Sample.escape (fun _ => .ok Sample.payload)
        "Nocturne E minor".toList =
      .ok { ID := "4711".toList
            Composer := "Op. Posth. Editions".toList
            Title := "Nocturne in E minor".toList
            PageURL := "https://imslp.org/wiki/Nocturne%20E%20minor".toList
            Instrumentation := "For piano, For Piano".toList
            Key := "C major".toList
            OpusNumber := [] } :=
  (GetWorkDetails_assembles Sample.escape (fun _ => .ok Sample.payload)
    "Nocturne E minor".toList Sample.payload rfl).1.trans (by rfl)

/-- Claim C8 as amended, at "Suite (Bach, Johann Sebastian) (arr.)". -/
theorem parseIMSLPTitle_composer_after_paren_witness :
    (client.parseIMSLPTitle ("Suite".toList ++ " (".toList ++ "Bach, Johann Sebastian".toList ++
        ")".toList ++ " (arr.)".toList)).1 =
      TrimSpace ("Bach, Johann Sebastian".toList ++ ")".toList ++
        Ref.dropClosingParen " (arr.)".toList) ∧
    ')' ∈ (client.parseIMSLPTitle ("Suite".toList ++ " (".toList ++
        "Bach, Johann Sebastian".toList ++ ")".toList ++ " (arr.)".toList)).1 :=
  parseIMSLPTitle_composer_after_paren "Suite".toList "Bach, Johann Sebastian".toList
    " (arr.)".toList (by decide) (by decide)

/-- Claim C2 at "Symphony op.5", which has no capitalised "Op.": nothing is extracted; and
at "Sonata Op. 27 , No.2", whose first "Op." stands at index 7: the result is "Op.27". -/
theorem extractOpusNumber_eq_opusExtractor_witness :
    (¬ "Op.".toList <:+: "Symphony op.5".toList ∧
      client.extractOpusNumber "Symphony op.5".toList = []) ∧
    (∃ pre kept post,
      Ref.upTo (Ref.upTo ("Sonata Op. 27 , No.2".toList.drop (7 + 3)) "Op.".toList)
          ",".toList = pre ++ kept ++ post ∧
      client.extractOpusNumber "Sonata Op. 27 , No.2".toList = "Op.".toList ++ kept ∧
      (∀ ch ∈ pre, Ref.isWhiteSpace ch = true) ∧
      (∀ ch ∈ post, Ref.isWhiteSpace ch = true) ∧
      (∀ ch, kept.head? = some ch → Ref.isWhiteSpace ch = false) ∧
      (∀ ch, kept.getLast? = some ch → Ref.isWhiteSpace ch = false)) :=
  ⟨⟨by decide, extractOpusNumber_eq_opusExtractor.2.1 "Symphony op.5".toList (by decide)⟩,
   extractOpusNumber_eq_opusExtractor.2.2.1 "Sonata Op. 27 , No.2".toList 7 (by decide)⟩

theorem trimSpace_of_hasNoOuterSpace (s : Str) (h : Ref.hasNoOuterSpace s = true) :
    TrimSpace s = s := by
  rcases List.eq_nil_or_concat s with rfl | ⟨l, b, rfl⟩
  · rfl
  · rw [List.concat_eq_append] at h ⊢
    have hl : (l ++ [b]).getLast? = some b := by simp
    unfold Ref.hasNoOuterSpace at h
    rw [hl] at h
    have hboth : unicode.IsSpace b = false ∧
        (l ++ [b]).dropWhile unicode.IsSpace = l ++ [b] := by
      cases l with
      | nil =>
        simp only [List.nil_append, List.head?_cons, Bool.and_eq_true, Bool.not_eq_true'] at h
        exact ⟨h.2, by simp [List.dropWhile_cons, h.2]⟩
      | cons a l =>
        simp only [List.cons_append, List.head?_cons, Bool.and_eq_true,
          Bool.not_eq_true'] at h
        exact ⟨h.2, by simp [List.dropWhile_cons, h.1]⟩
    unfold TrimSpace
    rw [hboth.2, List.reverse_append, List.reverse_singleton, List.singleton_append,
      List.dropWhile_cons]
    simp [hboth.1]

theorem not_infix_append_space (w : Str) (h : ¬ " (".toList <:+: w) :
    ¬ " (".toList <:+: w ++ [' '] := by
  rintro ⟨x, y, hxy⟩
  rcases List.eq_nil_or_concat y with rfl | ⟨y', b, rfl⟩
  · have := congrArg List.getLast? hxy
    simp at this
  · apply h
    refine ⟨x, y', ?_⟩
    have e : (x ++ " (".toList ++ y') ++ [b] = w ++ [' '] := by
      simpa [List.append_assoc] using hxy
    exact (List.append_inj' e rfl).1

/-- Claim C11: parsing undoes the canonical construction of a page title: for a work
title `w` without " (" and a composer `c`, both without leading or trailing white space,
`parseIMSLPTitle (w + " (" + c + ")")` is the composer `c` with the work title `w`, and
the page title rebuilt from the parsed parts is the original one. -/
theorem parseIMSLPTitle_pageTitle (w c : Str) (hw : ¬ " (".toList <:+: w)
    (hws : Ref.hasNoOuterSpace w = true) (hcs : Ref.hasNoOuterSpace c = true) :
    client.parseIMSLPTitle (Ref.pageTitle w c) = (c, w) ∧
    Ref.pageTitle (client.parseIMSLPTitle (Ref.pageTitle w c)).2
        (client.parseIMSLPTitle (Ref.pageTitle w c)).1 = Ref.pageTitle w c := by
  have hidx : Index (Ref.pageTitle w c) " (".toList = some w.length := by
    have := index_of_first w (c ++ ")".toList) (not_infix_append_space w hw)
    simpa [Ref.pageTitle, List.append_assoc] using this
  have hparse : client.parseIMSLPTitle (Ref.pageTitle w c) = (c, w) := by
    unfold client.parseIMSLPTitle
    rw [hidx]
    have htake : (Ref.pageTitle w c).take w.length = w := by
      simp [Ref.pageTitle, List.append_assoc, List.take_append_eq_append_take]
    have hdrop : (Ref.pageTitle w c).drop (w.length + 2) = c ++ ")".toList := by
      simp [Ref.pageTitle, List.append_assoc, List.drop_append_eq_append_drop]
    have hsuf : TrimSuffix (c ++ ")".toList) ")".toList = c := by
      rw [trimSuffix_paren, Ref.dropClosingParen]
      simp
    simp only [htake, hdrop, hsuf, trimSpace_of_hasNoOuterSpace _ hws,
      trimSpace_of_hasNoOuterSpace _ hcs]
  exact ⟨hparse, by rw [hparse]⟩

/-- Claim C11 at the page title "Piano Sonata No.14, Op.27 No.2 (Beethoven, Ludwig van)". -/
theorem parseIMSLPTitle_pageTitle_witness :
    client.parseIMSLPTitle "Piano Sonata No.14, Op.27 No.2 (Beethoven, Ludwig van)".toList =
      ("Beethoven, Ludwig van".toList, "Piano Sonata No.14, Op.27 No.2".toList) :=
  (parseIMSLPTitle_pageTitle "Piano Sonata No.14, Op.27 No.2".toList
    "Beethoven, Ludwig van".toList (by decide) (by decide) (by decide)).1

end Bachstreet
